import Mathlib

/-!
Shallow embedding of `subcmds/sync.py` (the `repo sync` command): the fetch
scheduler (`Sync._Fetch` / `Sync._FetchHelper`), the project-set reconciler
(`Sync.UpdateProjectList`), the orchestrator (`Sync.Execute`), and the
self-upgrade verifier (`_PostRepoFetch` / `_VerifyTag`).

Modelling conventions:
* Machine-level effects are made explicit: external collaborator results
  (`Sync_NetworkHalf`, `IsDirty`, `SyncBuffer.Finish`, subprocess exit codes,
  RPC replies) are inputs; side effects are recorded in an event trace.
* `sys.exit(n)` is the outcome `Outcome.exited n`; `RepoChangedException`
  is `Outcome.repoChanged`.
* Python string falsiness (`if not s`) is modelled by the empty string /
  `Option.none` as indicated at each field.
* Working trees are modelled as independent entities keyed by their
  manifest-relative path; `shutil.rmtree` on one tree is recorded as the
  deletion of that path.
-/

deriving instance DecidableEq for Except

namespace RepoSync

/-- A project handle: identity (`name`), metadata directory (`gitdir`),
manifest-relative path (`relpath`, `""` models a falsy/absent value) and
working tree (`worktree`, `""` models a falsy/absent value). -/
structure Project where
  name : String
  gitdir : String
  relpath : String
  worktree : String
  deriving DecidableEq

/-- Observable actions of a sync run, in program order. -/
inductive Ev where
  | rpcCall
  | manifestOverride (file : String)
  | preSyncRepo
  | preSyncManifest
  | postRepoUpgrade
  | netHalf (name : String)
  | localHalf (name : String)
  | unload
  | reconcile
  | rmtree (path : String)
  | writeProjectList
  | tagVerify
  | notice (s : String)
  deriving DecidableEq

/-- How a run of `Sync.Execute` terminates: normal return (`done`),
`sys.exit code`, or a raised `RepoChangedException extraArgs`. -/
inductive Outcome where
  | done
  | exited (code : Nat)
  | repoChanged (extraArgs : List String)
  deriving DecidableEq

/-- The command-line options consumed by `Sync.Execute`.  `jobs = 0` models a
falsy/unset `-j` value (the code keeps the default `self.jobs = 1` then). -/
structure Opts where
  force_broken : Bool
  local_only : Bool
  network_only : Bool
  detach_head : Bool
  quiet : Bool
  jobs : Nat
  smart_sync : Bool
  no_repo_verify : Bool
  repo_upgraded : Bool
  deriving DecidableEq

/-- Is `c` one of `0-9`? (`[0-9]` in the tag-description pattern). -/
def isDigitChar (c : Char) : Bool := decide ('0' ≤ c) && decide (c ≤ '9')

/-- Is `c` one of `0-9a-f`? (`[0-9a-f]` in the tag-description pattern). -/
def isHexLowerChar (c : Char) : Bool :=
  isDigitChar c || (decide ('a' ≤ c) && decide (c ≤ 'f'))

/-- Does `s` match the anchored pattern `^.*-[0-9]{1,}-g[0-9a-f]{1,}$` used by
`_VerifyTag` to recognise a `git describe` output that is N commits past the
nearest tag?  Since the leading `.*` is unconstrained, a match exists exactly
when some suffix of `s` has the form `-<digits>-g<hexdigits>`. -/
def untaggedShape (s : String) : Bool :=
  (List.range s.data.length).any fun i =>
    match s.data.drop i with
    | '-' :: rest =>
      (List.range rest.length).any fun j =>
        match rest.drop j with
        | '-' :: 'g' :: h =>
          decide (0 < j) && (rest.take j).all isDigitChar
            && !h.isEmpty && h.all isHexLowerChar
        | _ => false
    | _ => false

/-- The external observations `_VerifyTag` depends on: whether
`~/.repoconfig/gnupg` exists, the result of `bare_git.describe` on the fetched
revision (`.error ()` models a raised `GitError`), and the exit status of the
`git tag -v` subprocess, were it to run. -/
structure VerifyEnv where
  gpgDirExists : Bool
  describeResult : Except Unit String
  tagVerifyExit : Nat
  deriving DecidableEq

/-- Result of `_VerifyTag`: its boolean return value and whether the
`git tag -v` verification subprocess was spawned. -/
structure VerifyOut where
  accepted : Bool
  ranTagVerify : Bool
  deriving DecidableEq

/-- Shallow embedding of `_VerifyTag` (sync.py lines 391-437).  Missing gnupg
directory: warn and return True without running the subprocess.  A `GitError`
from `describe` is caught and leaves `cur = None`; `not cur` (None or empty)
or an untagged-shape description refuses without running the subprocess.
Otherwise `git tag -v cur` runs: nonzero exit refuses, zero exit accepts.
The function is total: no exception escapes. -/
def VerifyTag (v : VerifyEnv) : VerifyOut :=
  if !v.gpgDirExists then
    { accepted := true, ranTagVerify := false }
  else
    let cur : Option String :=
      match v.describeResult with
      | .error _ => none
      | .ok s => some s
    let curFalsy : Bool :=
      match cur with
      | none => true
      | some s => s.isEmpty
    if curFalsy || untaggedShape (cur.getD "") then
      { accepted := false, ranTagVerify := false }
    else if v.tagVerifyExit ≠ 0 then
      { accepted := false, ranTagVerify := true }
    else
      { accepted := true, ranTagVerify := true }

/-- What `_PostRepoFetch` does after the verification decision: continue the
run on the old version (`proceed`), `sys.exit(1)` on ledger failure
(`exitOne`), or raise `RepoChangedException(extraArgs)` (`restart`). -/
inductive PostOutcome where
  | proceed
  | exitOne
  | restart (extraArgs : List String)
  deriving DecidableEq

/-- Shallow embedding of `_PostRepoFetch` (sync.py lines 374-389).
`no_repo_verify or _VerifyTag(rp)` short-circuits, so with the flag set the
verifier (and its subprocess) never runs.  On adoption, `rp.Sync_LocalHalf`
runs through a fresh `SyncBuffer`; ledger failure exits 1; success raises
`RepoChangedException(['--repo-upgraded'])`.  On refusal a warning is printed
and the run proceeds. -/
def PostRepoFetch (rpName : String) (hasChanges no_repo_verify : Bool)
    (v : VerifyEnv) (ledgerOk : Bool) : PostOutcome × List Ev :=
  if hasChanges then
    if no_repo_verify then
      if ledgerOk then (.restart ["--repo-upgraded"], [Ev.localHalf rpName])
      else (.exitOne, [Ev.localHalf rpName])
    else
      let vr := VerifyTag v
      let ve : List Ev := if vr.ranTagVerify then [Ev.tagVerify] else []
      if vr.accepted then
        if ledgerOk then (.restart ["--repo-upgraded"], ve ++ [Ev.localHalf rpName])
        else (.exitOne, ve ++ [Ev.localHalf rpName])
      else (.proceed, ve)
  else (.proceed, [])

/-- Result of one `Sync._FetchHelper` worker (sync.py lines 138-151):
whether it called `sys.exit`, how many times it released the admission
semaphore, and which gitdir (if any) it added to the shared fetched set. -/
structure HelperRes where
  exitCode : Option Nat
  semReleases : Nat
  added : Option String
  deriving DecidableEq

/-- Shallow embedding of `Sync._FetchHelper`.  `syncRes` is the boolean result
of `project.Sync_NetworkHalf`.  On failure without `--force-broken` the worker
releases the semaphore and exits 1.  On failure WITH `--force-broken` control
falls through to the shared-set update, so the failed project's gitdir is
still added. -/
def FetchHelper (force_broken : Bool) (syncRes : Bool) (gitdir : String) : HelperRes :=
  if !syncRes then
    if force_broken then
      { exitCode := none, semReleases := 1, added := some gitdir }
    else
      { exitCode := some 1, semReleases := 1, added := none }
  else
    { exitCode := none, semReleases := 1, added := some gitdir }

/-- Sequential (`self.jobs == 1`) arm of `Sync._Fetch` (sync.py lines
157-167): on success add the gitdir to `fetched`; on failure continue when
`--force-broken` is set (without adding) and `sys.exit(1)` otherwise.
`.error es` models the process exiting 1 after the events `es`. -/
def FetchSeq (force_broken : Bool) (syncOk : Project → Bool) :
    List Project → Except (List Ev) (List String × List Ev)
  | [] => .ok ([], [])
  | p :: rest =>
    if syncOk p then
      match FetchSeq force_broken syncOk rest with
      | .ok (g, es) => .ok (p.gitdir :: g, Ev.netHalf p.name :: es)
      | .error es => .error (Ev.netHalf p.name :: es)
    else if force_broken then
      match FetchSeq force_broken syncOk rest with
      | .ok (g, es) => .ok (g, Ev.netHalf p.name :: es)
      | .error es => .error (Ev.netHalf p.name :: es)
    else .error [Ev.netHalf p.name]

/-- Concurrent (`self.jobs > 1`) arm of `Sync._Fetch` (sync.py lines
168-185): every project is handed to a `_FetchHelper` worker; the shared
`fetched` set collects exactly the gitdirs the workers add, here enumerated
in the scheduler-chosen completion order of the worker threads.  A worker
that calls `sys.exit` terminates the whole process. -/
def FetchConc (force_broken : Bool) (syncOk : Project → Bool) :
    List Project → Except (List Ev) (List String × List Ev)
  | [] => .ok ([], [])
  | p :: rest =>
    let h := FetchHelper force_broken (syncOk p) p.gitdir
    match h.exitCode with
    | some _ => .error [Ev.netHalf p.name]
    | none =>
      match FetchConc force_broken syncOk rest with
      | .ok (g, es) =>
        match h.added with
        | some gd => .ok (gd :: g, Ev.netHalf p.name :: es)
        | none => .ok (g, Ev.netHalf p.name :: es)
      | .error es => .error (Ev.netHalf p.name :: es)

/-- Filesystem state observed by `Sync.UpdateProjectList`: the content of
`.repo/project.list` (`none` models an absent file), and per-path results of
`os.path.exists(topdir/path)` and of the transient project's `IsDirty()`. -/
structure FS where
  projectList : Option String
  treeExists : String → Bool
  treeDirty : String → Bool

/-- Split a character list at every newline (Python `str.split('\n')` on the
underlying characters): `"".split` is `[""]`, a trailing newline yields a
trailing empty field. -/
def splitLinesAux : List Char → List (List Char)
  | [] => [[]]
  | c :: rest =>
    if c = '\n' then [] :: splitLinesAux rest
    else
      match splitLinesAux rest with
      | [] => [[c]]
      | h :: t => (c :: h) :: t

/-- Python `content.split('\n')`. -/
def splitLines (s : String) : List String := (splitLinesAux s.data).map String.mk

/-- Interleave `'\n'` between the elements (Python `'\n'.join`). -/
def joinLinesAux : List (List Char) → List Char
  | [] => []
  | [l] => l
  | l :: rest => l ++ '\n' :: joinLinesAux rest

/-- Python `'\n'.join(lines)`. -/
def joinLines (lines : List String) : String :=
  String.mk (joinLinesAux (lines.map String.data))

/-- Character-level lexicographic comparison of code points, the order Python
uses to `sort()` a list of strings. -/
def lexLe : List Char → List Char → Bool
  | [], _ => true
  | _ :: _, [] => false
  | a :: as, b :: bs =>
    if a.toNat < b.toNat then true
    else if a.toNat = b.toNat then lexLe as bs
    else false

/-- The string order used by `new_project_paths.sort()`. -/
def StrLe (a b : String) : Prop := lexLe a.data b.data = true

instance : DecidableRel StrLe := fun _ _ => instDecidableEqBool _ _

/-- Python `list.sort()` on strings: a stable sort under `StrLe`. -/
def sortPaths (l : List String) : List String := List.insertionSort StrLe l

/-- The obsolete-path scan of `Sync.UpdateProjectList` (sync.py lines
205-238): walk `oldPaths` in order; skip empty paths, still-declared paths,
and paths whose tree is already gone; abort (`.2 = true`) at the first dirty
obsolete tree; otherwise delete the tree and continue.  `.1` lists the
deleted worktree paths in deletion order. -/
def reconcileObsolete (newPaths : List String) (tExists tDirty : String → Bool) :
    List String → List String × Bool
  | [] => ([], false)
  | path :: rest =>
    if path = "" then reconcileObsolete newPaths tExists tDirty rest
    else if path ∈ newPaths then reconcileObsolete newPaths tExists tDirty rest
    else if !tExists path then reconcileObsolete newPaths tExists tDirty rest
    else if tDirty path then ([], true)
    else
      let r := reconcileObsolete newPaths tExists tDirty rest
      (path :: r.1, r.2)

/-- The `new_project_paths` list built at sync.py lines 191-194: the truthy
relpaths of `manifest.projects.values()`. -/
def newPathsOf (manifestRelpaths : List String) : List String :=
  manifestRelpaths.filter (fun p => !(p == ""))

/-- The `old_project_paths` list read at sync.py lines 197-204 (absent file
means no prior paths). -/
def oldPathsOf (fs : FS) : List String :=
  match fs.projectList with
  | none => []
  | some content => splitLines content

/-- Result of `Sync.UpdateProjectList`: its return value (`0` or `-1`), the
worktrees it deleted, and the content of `project.list` afterwards. -/
structure ReconcileResult where
  status : Int
  deleted : List String
  fileContent : Option String
  deriving DecidableEq

/-- Shallow embedding of `Sync.UpdateProjectList` (sync.py lines 190-247).
`manifestRelpaths` are the `relpath` values of `manifest.projects.values()`
(falsy ones are dropped by `if project.relpath`).  On an abort the record is
left as it was; on success the sorted new paths are written back, one per
line with a trailing newline. -/
def UpdateProjectList (fs : FS) (manifestRelpaths : List String) : ReconcileResult :=
  let newPaths := newPathsOf manifestRelpaths
  let scan := reconcileObsolete newPaths fs.treeExists fs.treeDirty (oldPathsOf fs)
  if scan.2 then
    { status := -1, deleted := scan.1, fileContent := fs.projectList }
  else
    { status := 0, deleted := scan.1,
      fileContent := some (joinLines (sortPaths newPaths) ++ "\n") }

/-- The external world a run of `Sync.Execute` observes. -/
structure Env where
  mp : Project
  rp : Project
  manifestServer : Option String
  rpcResult : Except Unit (Bool × String)
  manifestWriteOk : Bool
  mpHasChanges : Bool
  mpLedgerOk : Bool
  projects : List Project
  syncOk : Project → Bool
  schedule : List Project → List Project
  nowSec : Nat
  rpLastFetch : Nat
  rpHasChanges : Bool
  verify : VerifyEnv
  rpLedgerOk : Bool
  isMirror : Bool
  fs : FS
  manifestRelpaths : List String
  finalLedgerOk : Bool
  manifestNotice : Option String

/-- The smart-sync block of `Sync.Execute` (sync.py lines 259-302): missing
manifest server is a hard configuration error; a `socket.error` from the RPC,
a `success = false` reply, or an `IOError` writing the override manifest all
exit 1; on success the override manifest is written and installed. -/
def smartSyncStage (opt : Opts) (env : Env) : Except (Outcome × List Ev) (List Ev) :=
  if !opt.smart_sync then .ok []
  else
    match env.manifestServer with
    | none => .error (.exited 1, [])
    | some _ =>
      match env.rpcResult with
      | .error _ => .error (.exited 1, [Ev.rpcCall])
      | .ok (success, _payload) =>
        if success then
          if env.manifestWriteOk then
            .ok [Ev.rpcCall, Ev.manifestOverride "smart_sync_override.xml"]
          else .error (.exited 1, [Ev.rpcCall])
        else .error (.exited 1, [Ev.rpcCall])

/-- Lines 304-321 of `Sync.Execute`: the pre-sync hooks, the optional
`_PostRepoUpgrade`, the manifest network fetch (guarded by `--local-only`),
and the manifest local update, which is guarded only by `mp.HasChanges` —
not by `--local-only`. -/
def manifestStage (opt : Opts) (env : Env) : Except (Outcome × List Ev) (List Ev) :=
  let e0 := [Ev.preSyncRepo, Ev.preSyncManifest]
  let e1 := e0 ++ (if opt.repo_upgraded then [Ev.postRepoUpgrade] else [])
  let e2 := e1 ++ (if !opt.local_only then [Ev.netHalf env.mp.name] else [])
  if env.mpHasChanges then
    let e3 := e2 ++ [Ev.localHalf env.mp.name]
    if env.mpLedgerOk then .ok (e3 ++ [Ev.unload])
    else .error (.exited 1, e3)
  else .ok e2

/-- Events recorded by a stage whether it aborted or not. -/
def stageEvents : Except (Outcome × List Ev) (List Ev) → List Ev
  | .ok es => es
  | .error (_, es) => es

/-- The `to_fetch` list of sync.py lines 325-329: the tool's own repository is
prepended when its last fetch is at least 24 hours (86400 seconds) old, then
all selected projects. -/
def fetchList (env : Env) : List Project :=
  (if 86400 ≤ env.nowSec - env.rpLastFetch then [env.rp] else []) ++ env.projects

/-- The `self._Fetch(to_fetch, opt)` call of sync.py line 331, dispatching on
the effective job count (`self.jobs`, overridden by a truthy `-j`). -/
def fetchResult (opt : Opts) (env : Env) : Except (List Ev) (List String × List Ev) :=
  if (if opt.jobs ≠ 0 then opt.jobs else 1) = 1 then
    FetchSeq opt.force_broken env.syncOk (fetchList env)
  else
    FetchConc opt.force_broken env.syncOk (env.schedule (fetchList env))

/-- Lines 324-335 of `Sync.Execute`: skip entirely under `--local-only`;
otherwise run `_Fetch` and then `_PostRepoFetch`.  The retry block for
projects missing from the fetched set (lines 337-343) sits after the
`return` and is unreachable, so it has no counterpart here. -/
def fetchStage (opt : Opts) (env : Env) : Except (Outcome × List Ev) (List Ev) :=
  if opt.local_only then .ok []
  else
    match fetchResult opt env with
    | .error es => .error (.exited 1, es)
    | .ok (_fetched, es) =>
      match PostRepoFetch env.rp.name env.rpHasChanges opt.no_repo_verify
          env.verify env.rpLedgerOk with
      | (.proceed, esp) => .ok (es ++ esp)
      | (.exitOne, esp) => .error (.exited 1, es ++ esp)
      | (.restart extraArgs, esp) => .error (.repoChanged extraArgs, es ++ esp)

/-- Shallow embedding of `Sync.Execute` (sync.py lines 249-367): flag
validation, smart sync, pre-sync and manifest update, fetch phase with
self-upgrade check, the `--network-only` early return, the mirror early
return, reconciliation, the per-project local-update pass, and the final
notice. -/
def Execute (opt : Opts) (env : Env) : Outcome × List Ev :=
  if opt.network_only && opt.detach_head then (.exited 1, [])
  else if opt.network_only && opt.local_only then (.exited 1, [])
  else
    match smartSyncStage opt env with
    | .error r => r
    | .ok es1 =>
      match manifestStage opt env with
      | .error (o, es) => (o, es1 ++ es)
      | .ok es2 =>
        match fetchStage opt env with
        | .error (o, es) => (o, es1 ++ es2 ++ es)
        | .ok es3 =>
          let base := es1 ++ es2 ++ es3
          if opt.network_only then (.done, base)
          else if env.isMirror then (.done, base)
          else
            let r := UpdateProjectList env.fs env.manifestRelpaths
            let esR := base ++ [Ev.reconcile] ++ r.deleted.map Ev.rmtree
              ++ (if r.status = 0 then [Ev.writeProjectList] else [])
            if r.status ≠ 0 then (.exited 1, esR)
            else
              let esL := esR ++
                (env.projects.filter (fun p => !(p.worktree == ""))).map
                  (fun p => Ev.localHalf p.name)
              if !env.finalLedgerOk then (.exited 1, esL)
              else
                match env.manifestNotice with
                | none => (.done, esL)
                | some s => (.done, esL ++ [Ev.notice s])

/-- A concrete external world used to instantiate the theorems below on
closed inputs; individual fields are overridden per scenario. -/
def baseEnv : Env where
  mp := ⟨"manifest", "gm", "m", "m"⟩
  rp := ⟨"repo", "gr", "r", "r"⟩
  manifestServer := none
  rpcResult := .ok (true, "")
  manifestWriteOk := true
  mpHasChanges := false
  mpLedgerOk := true
  projects := []
  syncOk := fun _ => true
  schedule := fun l => l
  nowSec := 0
  rpLastFetch := 0
  rpHasChanges := false
  verify := ⟨false, .ok "", 0⟩
  rpLedgerOk := true
  isMirror := false
  fs := ⟨none, fun _ => false, fun _ => false⟩
  manifestRelpaths := []
  finalLedgerOk := true
  manifestNotice := none

/-! ## Supporting lemmas -/

theorem lexLe_total : ∀ a b : List Char, lexLe a b = true ∨ lexLe b a = true := by
  intro a
  induction a with
  | nil => intro b; left; rfl
  | cons x xs ih =>
    intro b
    cases b with
    | nil => right; rfl
    | cons y ys =>
      simp only [lexLe]
      by_cases h1 : x.toNat < y.toNat
      · left; simp [h1]
      · by_cases h2 : x.toNat = y.toNat
        · have h2s : y.toNat = x.toNat := h2.symm
          have hny : ¬ y.toNat < x.toNat := by omega
          rcases ih ys with h | h
          · left; simp [h1, h2, h]
          · right; simp [hny, h2s, h]
        · right
          have hyx : y.toNat < x.toNat := by omega
          simp [hyx]

theorem lexLe_trans : ∀ a b c : List Char,
    lexLe a b = true → lexLe b c = true → lexLe a c = true := by
  intro a
  induction a with
  | nil => intro b c _ _; rfl
  | cons x xs ih =>
    intro b c hab hbc
    cases b with
    | nil => simp [lexLe] at hab
    | cons y ys =>
      cases c with
      | nil => simp [lexLe] at hbc
      | cons z zs =>
        simp only [lexLe] at hab hbc ⊢
        split_ifs at hab hbc ⊢ <;>
          first
            | rfl
            | omega
            | exact ih ys zs hab hbc

instance : IsTotal String StrLe := ⟨fun a b => lexLe_total a.data b.data⟩

instance : IsTrans String StrLe := ⟨fun a b c => lexLe_trans a.data b.data c.data⟩

theorem sortPaths_perm (l : List String) : (sortPaths l).Perm l :=
  List.perm_insertionSort _ l

theorem sortPaths_sorted (l : List String) : List.Sorted StrLe (sortPaths l) :=
  List.sorted_insertionSort _ l

theorem splitLinesAux_append (l rest : List Char) (h : '\n' ∉ l) :
    splitLinesAux (l ++ '\n' :: rest) = l :: splitLinesAux rest := by
  induction l with
  | nil => rfl
  | cons c cs ih =>
    have hc : ¬ c = '\n' := fun hc => h (hc ▸ List.mem_cons_self c cs)
    have hcs : '\n' ∉ cs := fun hm => h (List.mem_cons_of_mem c hm)
    show splitLinesAux (c :: (cs ++ '\n' :: rest)) = _
    simp only [splitLinesAux, if_neg hc]
    rw [ih hcs]

theorem splitLinesAux_join (ls : List (List Char)) (hne : ls ≠ [])
    (h : ∀ l ∈ ls, '\n' ∉ l) :
    splitLinesAux (joinLinesAux ls ++ ['\n']) = ls ++ [[]] := by
  induction ls with
  | nil => exact absurd rfl hne
  | cons l rest ih =>
    cases rest with
    | nil =>
      have hl : '\n' ∉ l := h l (List.mem_cons_self l [])
      simpa [joinLinesAux] using splitLinesAux_append l [] hl
    | cons l2 rest2 =>
      have hl : '\n' ∉ l := h l (List.mem_cons_self l _)
      have hrest : ∀ x ∈ l2 :: rest2, '\n' ∉ x :=
        fun x hx => h x (List.mem_cons_of_mem l hx)
      have hrne : l2 :: rest2 ≠ ([] : List (List Char)) := by simp
      calc splitLinesAux (joinLinesAux (l :: l2 :: rest2) ++ ['\n'])
          = splitLinesAux (l ++ '\n' :: (joinLinesAux (l2 :: rest2) ++ ['\n'])) := by
            simp [joinLinesAux]
        _ = l :: splitLinesAux (joinLinesAux (l2 :: rest2) ++ ['\n']) :=
            splitLinesAux_append l _ hl
        _ = l :: (l2 :: rest2 ++ [[]]) := by rw [ih hrne hrest]
        _ = (l :: l2 :: rest2) ++ [[]] := rfl

theorem mem_splitLines_join (lines : List String)
    (hnl : ∀ s ∈ lines, '\n' ∉ s.data) :
    ∀ x ∈ splitLines (joinLines lines ++ "\n"), x = "" ∨ x ∈ lines := by
  have hdata : (joinLines lines ++ "\n").data
      = joinLinesAux (lines.map String.data) ++ ['\n'] := by
    show (joinLines lines).data ++ ("\n" : String).data = _
    rfl
  cases lines with
  | nil =>
    intro x hx
    left
    have : splitLines (joinLines [] ++ "\n") = ["", ""] := by
      simp only [splitLines, hdata]
      rfl
    rw [this] at hx
    simpa using hx
  | cons l0 rest =>
    intro x hx
    have hmapne : (l0 :: rest).map String.data ≠ ([] : List (List Char)) := by simp
    have hmapnl : ∀ c ∈ (l0 :: rest).map String.data, '\n' ∉ c := by
      intro c hc
      rcases List.mem_map.1 hc with ⟨s, hs, rfl⟩
      exact hnl s hs
    have hsplit : splitLines (joinLines (l0 :: rest) ++ "\n")
        = (l0 :: rest) ++ [""] := by
      simp only [splitLines, hdata, splitLinesAux_join _ hmapne hmapnl, List.map_append]
      have hid : ((l0 :: rest).map String.data).map String.mk = l0 :: rest := by
        rw [List.map_map]
        exact List.map_id'' (fun _ => rfl) _
      rw [hid]
      rfl
    rw [hsplit] at hx
    rcases List.mem_append.1 hx with h | h
    · right; exact h
    · left; simpa using h

theorem reconcileObsolete_aborts (newPaths : List String) (tExists tDirty : String → Bool) :
    ∀ old : List String, (∃ p ∈ old, p ≠ "" ∧ p ∉ newPaths ∧ tExists p = true ∧ tDirty p = true) →
      (reconcileObsolete newPaths tExists tDirty old).2 = true := by
  intro old
  induction old with
  | nil => rintro ⟨p, hp, _⟩; simp at hp
  | cons q rest ih =>
    rintro ⟨p, hp, hne, hnew, hex, hd⟩
    rcases List.mem_cons.1 hp with rfl | hmem
    · simp only [reconcileObsolete, if_neg hne, if_neg hnew, hex]
      simp [hd]
    · have hrest : (reconcileObsolete newPaths tExists tDirty rest).2 = true :=
        ih ⟨p, hmem, hne, hnew, hex, hd⟩
      by_cases hq1 : q = ""
      · simpa [reconcileObsolete, hq1] using hrest
      · by_cases hq2 : q ∈ newPaths
        · simpa [reconcileObsolete, hq1, hq2] using hrest
        · by_cases hq3 : tExists q = true
          · by_cases hq4 : tDirty q = true
            · simp [reconcileObsolete, hq1, hq2, hq3, hq4]
            · simpa [reconcileObsolete, hq1, hq2, hq3, hq4] using hrest
          · simpa [reconcileObsolete, hq1, hq2, Bool.not_eq_true _ ▸ hq3] using hrest

theorem reconcileObsolete_deleted (newPaths : List String) (tExists tDirty : String → Bool) :
    ∀ old q, q ∈ (reconcileObsolete newPaths tExists tDirty old).1 →
      q ≠ "" ∧ q ∉ newPaths ∧ tExists q = true ∧ tDirty q = false := by
  intro old
  induction old with
  | nil => intro q hq; simp [reconcileObsolete] at hq
  | cons p rest ih =>
    intro q hq
    by_cases hp1 : p = ""
    · exact ih q (by simpa [reconcileObsolete, hp1] using hq)
    · by_cases hp2 : p ∈ newPaths
      · exact ih q (by simpa [reconcileObsolete, hp1, hp2] using hq)
      · by_cases hp3 : tExists p = true
        · by_cases hp4 : tDirty p = true
          · simp [reconcileObsolete, hp1, hp2, hp3, hp4] at hq
          · have hq' : q = p ∨ q ∈ (reconcileObsolete newPaths tExists tDirty rest).1 := by
              simpa [reconcileObsolete, hp1, hp2, hp3, hp4] using hq
            rcases hq' with rfl | hmem
            · exact ⟨hp1, hp2, hp3, by simpa using hp4⟩
            · exact ih q hmem
        · exact ih q (by simpa [reconcileObsolete, hp1, hp2, Bool.not_eq_true _ ▸ hp3] using hq)

theorem reconcileObsolete_skip (newPaths : List String) (tExists tDirty : String → Bool) :
    ∀ old : List String, (∀ p ∈ old, p = "" ∨ p ∈ newPaths) →
      reconcileObsolete newPaths tExists tDirty old = ([], false) := by
  intro old
  induction old with
  | nil => intro _; rfl
  | cons p rest ih =>
    intro h
    have hrest := ih fun q hq => h q (List.mem_cons_of_mem p hq)
    rcases h p (List.mem_cons_self p rest) with hp | hp
    · simp [reconcileObsolete, hp, hrest]
    · by_cases hp1 : p = ""
      · simp [reconcileObsolete, hp1, hrest]
      · simp [reconcileObsolete, hp1, hp, hrest]

/-! ## Claims about the project-set reconciler -/

/-- C2: in every reconciliation run, if some path present in the old persisted
record but absent from the manifest-declared paths has a working tree on disk
with uncommitted changes, then `UpdateProjectList` returns the failure status
`-1`, the persisted `project.list` content is unchanged, and that dirty
working tree is not deleted. -/
theorem dirty_obsolete_blocks_reconcile (fs : FS) (mrp : List String) (path : String)
    (hold : path ∈ oldPathsOf fs) (hne : path ≠ "") (hnot : path ∉ mrp)
    (hex : fs.treeExists path = true) (hdirty : fs.treeDirty path = true) :
    (UpdateProjectList fs mrp).status = -1 ∧
    (UpdateProjectList fs mrp).fileContent = fs.projectList ∧
    path ∉ (UpdateProjectList fs mrp).deleted := by
  have hnotnew : path ∉ newPathsOf mrp :=
    fun hmem => hnot (List.mem_of_mem_filter hmem)
  have habort :
      (reconcileObsolete (newPathsOf mrp) fs.treeExists fs.treeDirty (oldPathsOf fs)).2 = true :=
    reconcileObsolete_aborts _ _ _ _ ⟨path, hold, hne, hnotnew, hex, hdirty⟩
  have hres : UpdateProjectList fs mrp =
      { status := -1,
        deleted := (reconcileObsolete (newPathsOf mrp) fs.treeExists fs.treeDirty (oldPathsOf fs)).1,
        fileContent := fs.projectList } := by
    simp [UpdateProjectList, habort]
  rw [hres]
  refine ⟨rfl, rfl, fun hmem => ?_⟩
  have hclean := (reconcileObsolete_deleted _ _ _ _ _ hmem).2.2.2
  rw [hdirty] at hclean
  exact absurd hclean (by decide)

/-- Witness for C2: old record `a, b, c`, declared paths `a, c`, and `b`
existing and dirty on disk. -/
theorem dirty_obsolete_blocks_reconcile_witness :
    (UpdateProjectList ⟨some "a\nb\nc", fun p => p == "b", fun p => p == "b"⟩ ["a", "c"]).status = -1 ∧
    (UpdateProjectList ⟨some "a\nb\nc", fun p => p == "b", fun p => p == "b"⟩ ["a", "c"]).fileContent
      = (⟨some "a\nb\nc", fun p => p == "b", fun p => p == "b"⟩ : FS).projectList ∧
    "b" ∉ (UpdateProjectList ⟨some "a\nb\nc", fun p => p == "b", fun p => p == "b"⟩ ["a", "c"]).deleted :=
  dirty_obsolete_blocks_reconcile ⟨some "a\nb\nc", fun p => p == "b", fun p => p == "b"⟩
    ["a", "c"] "b" (by decide) (by decide) (by decide) rfl rfl

/-- C3 counterexample: old record `b, d`, nothing declared any more, `b` clean
and `d` dirty.  The run aborts with status `-1`, yet `b`'s working tree has
already been deleted — the abort does not prevent partial deletion. -/
theorem reconcile_abort_partial_deletion_cx :
    (UpdateProjectList ⟨some "b\nd", fun _ => true, fun p => p == "d"⟩ []).status = -1 ∧
    (UpdateProjectList ⟨some "b\nd", fun _ => true, fun p => p == "d"⟩ []).deleted = ["b"] := by
  exact ⟨rfl, rfl⟩

/-- C3 (amended): when `UpdateProjectList` aborts because an obsolete path's
tree is dirty, the persisted record is not rewritten and no dirty tree is
deleted, but every tree it did delete (possibly several, scanned before the
dirty one) was a clean, existing, no-longer-declared one. -/
theorem reconcile_abort_no_rewrite_no_dirty_deletion (fs : FS) (mrp : List String)
    (habort : (UpdateProjectList fs mrp).status = -1) :
    (UpdateProjectList fs mrp).fileContent = fs.projectList ∧
    ∀ q ∈ (UpdateProjectList fs mrp).deleted,
      fs.treeDirty q = false ∧ fs.treeExists q = true ∧ q ∉ mrp ∧ q ≠ "" := by
  by_cases hs :
      (reconcileObsolete (newPathsOf mrp) fs.treeExists fs.treeDirty (oldPathsOf fs)).2 = true
  · have hres : UpdateProjectList fs mrp =
        { status := -1,
          deleted := (reconcileObsolete (newPathsOf mrp) fs.treeExists fs.treeDirty (oldPathsOf fs)).1,
          fileContent := fs.projectList } := by
      simp [UpdateProjectList, hs]
    rw [hres]
    refine ⟨rfl, fun q hq => ?_⟩
    obtain ⟨h1, h2, h3, h4⟩ := reconcileObsolete_deleted _ _ _ _ q hq
    refine ⟨h4, h3, fun hmr => h2 (List.mem_filter.2 ⟨hmr, by simp [h1]⟩), h1⟩
  · exfalso
    have hres : (UpdateProjectList fs mrp).status = 0 := by
      simp [UpdateProjectList, hs]
    rw [hres] at habort
    exact absurd habort (by decide)

/-- Witness for C3 (amended) at a concrete aborting state. -/
theorem reconcile_abort_no_rewrite_no_dirty_deletion_witness :
    (UpdateProjectList ⟨some "b\nd", fun _ => true, fun p => p == "d"⟩ ["x"]).fileContent
      = (⟨some "b\nd", fun _ => true, fun p => p == "d"⟩ : FS).projectList ∧
    ∀ q ∈ (UpdateProjectList ⟨some "b\nd", fun _ => true, fun p => p == "d"⟩ ["x"]).deleted,
      (⟨some "b\nd", fun _ => true, fun p => p == "d"⟩ : FS).treeDirty q = false ∧
      (⟨some "b\nd", fun _ => true, fun p => p == "d"⟩ : FS).treeExists q = true ∧
      q ∉ (["x"] : List String) ∧ q ≠ "" :=
  reconcile_abort_no_rewrite_no_dirty_deletion
    ⟨some "b\nd", fun _ => true, fun p => p == "d"⟩ ["x"] (by decide)

/-- C5: after every successful reconciliation run the persisted record holds
exactly the sorted, duplicate-free declared relative paths, one per line
(`joinLines` plus a trailing newline); and a second run with the same
manifest succeeds, deletes nothing, and leaves the record's content
unchanged, whatever the disk state then looks like. -/
theorem project_list_sorted_and_idempotent (fs : FS) (mrp : List String)
    (hnd : (newPathsOf mrp).Nodup)
    (hnl : ∀ p ∈ newPathsOf mrp, '\n' ∉ p.data)
    (hok : (UpdateProjectList fs mrp).status = 0) :
    (UpdateProjectList fs mrp).fileContent
        = some (joinLines (sortPaths (newPathsOf mrp)) ++ "\n") ∧
    List.Sorted StrLe (sortPaths (newPathsOf mrp)) ∧
    (sortPaths (newPathsOf mrp)).Nodup ∧
    (sortPaths (newPathsOf mrp)).Perm (newPathsOf mrp) ∧
    ∀ ex2 d2 : String → Bool,
      UpdateProjectList ⟨(UpdateProjectList fs mrp).fileContent, ex2, d2⟩ mrp
        = { status := 0, deleted := [],
            fileContent := (UpdateProjectList fs mrp).fileContent } := by
  by_cases hs :
      (reconcileObsolete (newPathsOf mrp) fs.treeExists fs.treeDirty (oldPathsOf fs)).2 = true
  · exfalso
    have hres : (UpdateProjectList fs mrp).status = -1 := by
      simp [UpdateProjectList, hs]
    rw [hres] at hok
    exact absurd hok (by decide)
  · have hres : UpdateProjectList fs mrp =
        { status := 0,
          deleted := (reconcileObsolete (newPathsOf mrp) fs.treeExists fs.treeDirty (oldPathsOf fs)).1,
          fileContent := some (joinLines (sortPaths (newPathsOf mrp)) ++ "\n") } := by
      simp [UpdateProjectList, hs]
    refine ⟨by rw [hres], sortPaths_sorted _, (sortPaths_perm _).nodup_iff.mpr hnd,
      sortPaths_perm _, ?_⟩
    intro ex2 d2
    have hsorted_nl : ∀ s ∈ sortPaths (newPathsOf mrp), '\n' ∉ s.data :=
      fun s hs2 => hnl s ((sortPaths_perm _).mem_iff.mp hs2)
    have hmem2 : ∀ p ∈ splitLines (joinLines (sortPaths (newPathsOf mrp)) ++ "\n"),
        p = "" ∨ p ∈ newPathsOf mrp := by
      intro p hp
      rcases mem_splitLines_join _ hsorted_nl p hp with h | h
      · exact Or.inl h
      · exact Or.inr ((sortPaths_perm _).mem_iff.mp h)
    have hscan2 :=
      reconcileObsolete_skip (newPathsOf mrp) ex2 d2 _ hmem2
    rw [hres]
    simp only [UpdateProjectList, oldPathsOf, hscan2]
    rfl

/-- Witness for C5: no prior record, declared paths `b` and `a`. -/
theorem project_list_sorted_and_idempotent_witness :
    (UpdateProjectList ⟨none, fun _ => false, fun _ => false⟩ ["b", "a"]).fileContent
      = some (joinLines (sortPaths (newPathsOf ["b", "a"])) ++ "\n") :=
  (project_list_sorted_and_idempotent ⟨none, fun _ => false, fun _ => false⟩ ["b", "a"]
    (by decide) (by decide) (by decide)).1

/-! ## Claims about the fetch scheduler -/

theorem fetchSeq_ok_gitdirs (force : Bool) (syncOk : Project → Bool) :
    ∀ ps g es, FetchSeq force syncOk ps = .ok (g, es) →
      g = (ps.filter syncOk).map Project.gitdir := by
  intro ps
  induction ps with
  | nil =>
    intro g es h
    simp only [FetchSeq, Except.ok.injEq, Prod.mk.injEq] at h
    simp [← h.1]
  | cons p rest ih =>
    intro g es h
    by_cases hp : syncOk p = true
    · cases hrec : FetchSeq force syncOk rest with
      | error es2 => simp [FetchSeq, hp, hrec] at h
      | ok pr =>
        obtain ⟨g2, es2⟩ := pr
        simp only [FetchSeq, hp, if_pos, hrec, Except.ok.injEq, Prod.mk.injEq] at h
        rw [← h.1, ih g2 es2 hrec]
        simp [hp]
    · have hpf : syncOk p = false := by simpa using hp
      by_cases hf : force = true
      · subst hf
        cases hrec : FetchSeq true syncOk rest with
        | error es2 => simp [FetchSeq, hpf, hrec] at h
        | ok pr =>
          obtain ⟨g2, es2⟩ := pr
          have hstep : FetchSeq true syncOk (p :: rest)
              = .ok (g2, Ev.netHalf p.name :: es2) := by
            simp [FetchSeq, hpf, hrec]
          rw [hstep] at h
          simp only [Except.ok.injEq, Prod.mk.injEq] at h
          rw [← h.1, ih g2 es2 hrec]
          simp [hpf]
      · have hff : force = false := by simpa using hf
        subst hff
        simp [FetchSeq, hpf] at h

theorem fetchConc_ok_gitdirs (force : Bool) (syncOk : Project → Bool) :
    ∀ ps g es, FetchConc force syncOk ps = .ok (g, es) →
      g = (ps.filter (fun p => syncOk p || force)).map Project.gitdir := by
  intro ps
  induction ps with
  | nil =>
    intro g es h
    simp only [FetchConc, Except.ok.injEq, Prod.mk.injEq] at h
    simp [← h.1]
  | cons p rest ih =>
    intro g es h
    by_cases hp : syncOk p = true
    · cases hrec : FetchConc force syncOk rest with
      | error es2 => simp [FetchConc, FetchHelper, hp, hrec] at h
      | ok pr =>
        obtain ⟨g2, es2⟩ := pr
        simp only [FetchConc, FetchHelper, hp, Bool.not_true, Bool.false_eq_true,
          if_neg, not_false_eq_true, hrec] at h
        simp only [Except.ok.injEq, Prod.mk.injEq] at h
        rw [← h.1, ih g2 es2 hrec]
        simp [hp]
    · have hpf : syncOk p = false := by simpa using hp
      by_cases hf : force = true
      · subst hf
        cases hrec : FetchConc true syncOk rest with
        | error es2 => simp [FetchConc, FetchHelper, hpf, hrec] at h
        | ok pr =>
          obtain ⟨g2, es2⟩ := pr
          have hstep : FetchConc true syncOk (p :: rest)
              = .ok (p.gitdir :: g2, Ev.netHalf p.name :: es2) := by
            simp [FetchConc, FetchHelper, hpf, hrec]
          rw [hstep] at h
          simp only [Except.ok.injEq, Prod.mk.injEq] at h
          rw [← h.1, ih g2 es2 hrec]
          simp [hpf]
      · have hff : force = false := by simpa using hf
        subst hff
        simp [FetchConc, FetchHelper, hpf] at h

theorem fetchSeq_ok_all (syncOk : Project → Bool) :
    ∀ ps g es, FetchSeq false syncOk ps = .ok (g, es) → ∀ p ∈ ps, syncOk p = true := by
  intro ps
  induction ps with
  | nil => intro g es _ p hp; simp at hp
  | cons q rest ih =>
    intro g es h p hp
    by_cases hq : syncOk q = true
    · cases hrec : FetchSeq false syncOk rest with
      | error es2 => simp [FetchSeq, hq, hrec] at h
      | ok pr =>
        obtain ⟨g2, es2⟩ := pr
        rcases List.mem_cons.1 hp with rfl | hmem
        · exact hq
        · exact ih g2 es2 hrec p hmem
    · have hqf : syncOk q = false := by simpa using hq
      simp [FetchSeq, hqf] at h

theorem fetchConc_ok_all (syncOk : Project → Bool) :
    ∀ ps g es, FetchConc false syncOk ps = .ok (g, es) → ∀ p ∈ ps, syncOk p = true := by
  intro ps
  induction ps with
  | nil => intro g es _ p hp; simp at hp
  | cons q rest ih =>
    intro g es h p hp
    by_cases hq : syncOk q = true
    · cases hrec : FetchConc false syncOk rest with
      | error es2 => simp [FetchConc, FetchHelper, hq, hrec] at h
      | ok pr =>
        obtain ⟨g2, es2⟩ := pr
        rcases List.mem_cons.1 hp with rfl | hmem
        · exact hq
        · exact ih g2 es2 hrec p hmem
    · have hqf : syncOk q = false := by simpa using hq
      simp [FetchConc, FetchHelper, hqf] at h

theorem fetchSeq_err_of_fail (syncOk : Project → Bool) :
    ∀ ps p, p ∈ ps → syncOk p = false →
      ∃ es, FetchSeq false syncOk ps = .error es := by
  intro ps
  induction ps with
  | nil => intro p hp; simp at hp
  | cons q rest ih =>
    intro p hp hfail
    by_cases hq : syncOk q = true
    · have hmem : p ∈ rest := by
        rcases List.mem_cons.1 hp with rfl | hmem
        · rw [hfail] at hq; exact absurd hq (by decide)
        · exact hmem
      obtain ⟨es, hes⟩ := ih p hmem hfail
      exact ⟨Ev.netHalf q.name :: es, by simp [FetchSeq, hq, hes]⟩
    · have hqf : syncOk q = false := by simpa using hq
      exact ⟨[Ev.netHalf q.name], by simp [FetchSeq, hqf]⟩

theorem fetchConc_err_of_fail (syncOk : Project → Bool) :
    ∀ ps p, p ∈ ps → syncOk p = false →
      ∃ es, FetchConc false syncOk ps = .error es := by
  intro ps
  induction ps with
  | nil => intro p hp; simp at hp
  | cons q rest ih =>
    intro p hp hfail
    by_cases hq : syncOk q = true
    · have hmem : p ∈ rest := by
        rcases List.mem_cons.1 hp with rfl | hmem
        · rw [hfail] at hq; exact absurd hq (by decide)
        · exact hmem
      obtain ⟨es, hes⟩ := ih p hmem hfail
      refine ⟨Ev.netHalf q.name :: es, ?_⟩
      simp [FetchConc, FetchHelper, hq, hes]
    · have hqf : syncOk q = false := by simpa using hq
      exact ⟨[Ev.netHalf q.name], by simp [FetchConc, FetchHelper, hqf]⟩

/-- C1 counterexample: one project whose fetch fails, with `--force-broken`
set.  The sequential (`jobs == 1`) scheduler returns the empty success set,
but the concurrent scheduler's worker falls through after the warning and
adds the FAILED project's gitdir, so the returned sets differ and the
concurrent set contains a gitdir whose fetch did not succeed. -/
theorem fetch_force_broken_jobs_divergence :
    FetchSeq true (fun _ => false) [⟨"p", "gp", "p", "p"⟩] = .ok ([], [Ev.netHalf "p"]) ∧
    FetchConc true (fun _ => false) [⟨"p", "gp", "p", "p"⟩] = .ok (["gp"], [Ev.netHalf "p"]) ∧
    ([] : List String) ≠ ["gp"] :=
  ⟨rfl, rfl, by decide⟩

/-- C1 (amended): the sequential scheduler returns exactly the gitdirs of the
projects whose fetch succeeded; the concurrent scheduler returns those plus,
when `--force-broken` is set, the gitdirs of failed projects; consequently,
for the same per-project outcomes, the two schedulers return the same set
(up to order) whenever `--force-broken` is unset or every fetch succeeds. -/
theorem fetch_returned_set (force : Bool) (syncOk : Project → Bool)
    (ps order : List Project) (g1 es1 g2 es2)
    (hseq : FetchSeq force syncOk ps = .ok (g1, es1))
    (hconc : FetchConc force syncOk order = .ok (g2, es2)) :
    g1 = (ps.filter syncOk).map Project.gitdir ∧
    g2 = (order.filter (fun p => syncOk p || force)).map Project.gitdir ∧
    (order.Perm ps → (force = false ∨ ∀ p ∈ ps, syncOk p = true) → g2.Perm g1) := by
  have h1 := fetchSeq_ok_gitdirs force syncOk ps g1 es1 hseq
  have h2 := fetchConc_ok_gitdirs force syncOk order g2 es2 hconc
  refine ⟨h1, h2, fun hperm hcase => ?_⟩
  rcases hcase with rfl | hall
  · have hfe : (fun p => syncOk p || false) = syncOk := by
      funext p; simp
    rw [h1, h2, hfe]
    exact ((hperm.filter syncOk).map Project.gitdir)
  · have hallo : ∀ p ∈ order, syncOk p = true := fun p hp => hall p (hperm.mem_iff.mp hp)
    have hfo : order.filter (fun p => syncOk p || force) = order := by
      rw [List.filter_eq_self]
      intro p hp
      simp [hallo p hp]
    have hfs : ps.filter syncOk = ps := by
      rw [List.filter_eq_self]
      intro p hp
      simp [hall p hp]
    rw [h1, h2, hfo, hfs]
    exact hperm.map Project.gitdir

/-- Witness for C1 (amended): a single succeeding project, no force flag. -/
theorem fetch_returned_set_witness :
    (["gq"] : List String)
      = (([⟨"q", "gq", "q", "q"⟩] : List Project).filter (fun _ => true)).map Project.gitdir :=
  (fetch_returned_set false (fun _ => true) [⟨"q", "gq", "q", "q"⟩] [⟨"q", "gq", "q", "q"⟩]
    ["gq"] [Ev.netHalf "q"] ["gq"] [Ev.netHalf "q"] rfl rfl).1

/-- C8: on a fetch failure without `--force-broken`, the process terminates
with a non-zero status in both scheduler arms (`sys.exit(1)`, modelled by the
`.error` result), and the concurrent worker that fails releases the counting
admission semaphore exactly once before exiting, so no admission slot leaks. -/
theorem fetch_failure_fail_fast (syncOk : Project → Bool) (ps : List Project)
    (p : Project) (gd : String) :
    ((FetchHelper false false gd).exitCode = some 1 ∧
     (FetchHelper false false gd).semReleases = 1) ∧
    (p ∈ ps → syncOk p = false → ∃ es, FetchSeq false syncOk ps = .error es) ∧
    (p ∈ ps → syncOk p = false → ∃ es, FetchConc false syncOk ps = .error es) :=
  ⟨⟨rfl, rfl⟩,
   fun hmem hfail => fetchSeq_err_of_fail syncOk ps p hmem hfail,
   fun hmem hfail => fetchConc_err_of_fail syncOk ps p hmem hfail⟩

/-- Witness for C8: a single failing project. -/
theorem fetch_failure_fail_fast_witness :
    ∃ es, FetchSeq false (fun _ => false) [(⟨"q", "gq", "q", "q"⟩ : Project)] = .error es :=
  (fetch_failure_fail_fast (fun _ => false) [⟨"q", "gq", "q", "q"⟩]
    ⟨"q", "gq", "q", "q"⟩ "g").2.1 (by decide) rfl

/-! ## Claims about the self-upgrade verifier -/

/-- C4: the self-upgrade verifier as a case analysis.  (i) With the
skip-verification flag the verifier is bypassed and the upgrade adopted
(local update, then restart on ledger success, exit 1 on ledger failure).
(ii) Absent trust material the version is accepted with a warning and the
subprocess never runs.  (iii) With trust material but a failed describe
lookup, an empty description, or an untagged-shape description, the upgrade
is refused without running the subprocess and the run proceeds.  (iv) A
tagged, nonempty description verifying with subprocess exit 0 is accepted;
after a successful ledger pass a `RepoChangedException ['--repo-upgraded']`
restart signal is raised, which is distinct from the error exit. -/
theorem self_upgrade_case_analysis (rpName : String) (v : VerifyEnv)
    (ledgerOk : Bool) (s : String) :
    (PostRepoFetch rpName true true v ledgerOk
        = (if ledgerOk then (.restart ["--repo-upgraded"], [Ev.localHalf rpName])
           else (.exitOne, [Ev.localHalf rpName]))) ∧
    (v.gpgDirExists = false → VerifyTag v = ⟨true, false⟩) ∧
    (v.gpgDirExists = true →
      (v.describeResult = .error () ∨ v.describeResult = .ok "" ∨
        (v.describeResult = .ok s ∧ untaggedShape s = true)) →
      VerifyTag v = ⟨false, false⟩ ∧
      PostRepoFetch rpName true false v ledgerOk = (.proceed, [])) ∧
    (v.gpgDirExists = true → v.describeResult = .ok s → s.isEmpty = false →
      untaggedShape s = false → v.tagVerifyExit = 0 →
      VerifyTag v = ⟨true, true⟩ ∧
      (ledgerOk = true →
        PostRepoFetch rpName true false v ledgerOk
          = (.restart ["--repo-upgraded"], [Ev.tagVerify, Ev.localHalf rpName]))) ∧
    PostOutcome.restart ["--repo-upgraded"] ≠ PostOutcome.exitOne := by
  obtain ⟨g, dr, te⟩ := v
  refine ⟨by cases ledgerOk <;> rfl, ?_, ?_, ?_, by simp⟩
  · intro hg
    simp only at hg
    subst hg
    rfl
  · intro hg hcase
    simp only at hg
    subst hg
    rcases hcase with h | h | ⟨h, hu⟩ <;> simp only at h <;> subst h
    · exact ⟨rfl, rfl⟩
    · exact ⟨rfl, rfl⟩
    · constructor
      · simp [VerifyTag, hu]
      · simp [PostRepoFetch, VerifyTag, hu]
  · intro hg hd hs hu he
    simp only at hg hd
    subst hg
    subst hd
    simp only at he
    subst he
    have hv : VerifyTag ⟨true, .ok s, 0⟩ = ⟨true, true⟩ := by
      simp [VerifyTag, hs, hu]
    refine ⟨hv, fun hlo => ?_⟩
    subst hlo
    simp [PostRepoFetch, hv]

/-- Witness for C4: trust material present, describe raises `GitError`. -/
theorem self_upgrade_case_analysis_witness :
    VerifyTag ⟨true, .error (), 0⟩ = ⟨false, false⟩ ∧
    PostRepoFetch "repo" true false ⟨true, .error (), 0⟩ true = (.proceed, []) :=
  (self_upgrade_case_analysis "repo" ⟨true, .error (), 0⟩ true "x").2.2.1 rfl (Or.inl rfl)

/-- C10: a `GitError` raised while resolving the fetched commit's tag
description is caught inside `_VerifyTag` and treated exactly like an empty
("no tag found") description: refusal without spawning the verification
subprocess.  `VerifyTag` is a total function of its inputs, so no exception
from the lookup escapes to the caller. -/
theorem giterror_treated_as_no_tag (tagExit : Nat) :
    VerifyTag ⟨true, .error (), tagExit⟩ = ⟨false, false⟩ ∧
    VerifyTag ⟨true, .error (), tagExit⟩ = VerifyTag ⟨true, .ok "", tagExit⟩ :=
  ⟨rfl, rfl⟩

/-! ## Claims about the orchestrator -/

theorem smartSyncStage_error_outcome (opt : Opts) (env : Env) (o : Outcome) (es : List Ev)
    (h : smartSyncStage opt env = .error (o, es)) : o = .exited 1 := by
  unfold smartSyncStage at h
  repeat' split at h
  all_goals simp_all

theorem smartSyncStage_ok_events (opt : Opts) (env : Env) (es : List Ev)
    (h : smartSyncStage opt env = .ok es) :
    es = [] ∨ es = [Ev.rpcCall, Ev.manifestOverride "smart_sync_override.xml"] := by
  unfold smartSyncStage at h
  repeat' split at h
  all_goals simp_all

theorem manifestStage_error_outcome (opt : Opts) (env : Env) (o : Outcome) (es : List Ev)
    (h : manifestStage opt env = .error (o, es)) : o = .exited 1 := by
  unfold manifestStage at h
  repeat' split at h
  all_goals simp_all

theorem manifestStage_events (opt : Opts) (env : Env) :
    ∀ e ∈ stageEvents (manifestStage opt env),
      e = Ev.preSyncRepo ∨ e = Ev.preSyncManifest ∨ e = Ev.postRepoUpgrade ∨
      e = Ev.netHalf env.mp.name ∨ e = Ev.localHalf env.mp.name ∨ e = Ev.unload := by
  intro e he
  cases h1 : opt.repo_upgraded <;> cases h2 : opt.local_only <;>
    cases h3 : env.mpHasChanges <;> cases h4 : env.mpLedgerOk <;>
      simp [manifestStage, stageEvents, h1, h2, h3, h4] at he <;> tauto

theorem fetchStage_error_outcome (opt : Opts) (env : Env) (o : Outcome) (es : List Ev)
    (h : fetchStage opt env = .error (o, es)) :
    o = .exited 1 ∨ ∃ extraArgs, o = .repoChanged extraArgs := by
  unfold fetchStage at h
  repeat' split at h
  all_goals
    first
      | exact Except.noConfusion h
      | (injection h with h2; injection h2 with h3 h4; subst h3; exact Or.inl rfl)
      | (injection h with h2; injection h2 with h3 h4; subst h3; exact Or.inr ⟨_, rfl⟩)

theorem fetchSeq_ok_netHalf (force : Bool) (syncOk : Project → Bool) :
    ∀ ps g es, FetchSeq force syncOk ps = .ok (g, es) →
      ∀ e ∈ es, ∃ n, e = Ev.netHalf n := by
  intro ps
  induction ps with
  | nil =>
    intro g es h e he
    simp only [FetchSeq, Except.ok.injEq, Prod.mk.injEq] at h
    rw [← h.2] at he
    simp at he
  | cons p rest ih =>
    intro g es h e he
    by_cases hp : syncOk p = true
    · cases hrec : FetchSeq force syncOk rest with
      | error es2 => simp [FetchSeq, hp, hrec] at h
      | ok pr =>
        obtain ⟨g2, es2⟩ := pr
        have hstep : FetchSeq force syncOk (p :: rest)
            = .ok (p.gitdir :: g2, Ev.netHalf p.name :: es2) := by
          simp [FetchSeq, hp, hrec]
        rw [hstep] at h
        simp only [Except.ok.injEq, Prod.mk.injEq] at h
        rw [← h.2] at he
        rcases List.mem_cons.1 he with rfl | hm
        · exact ⟨p.name, rfl⟩
        · exact ih g2 es2 hrec e hm
    · have hpf : syncOk p = false := by simpa using hp
      by_cases hf : force = true
      · subst hf
        cases hrec : FetchSeq true syncOk rest with
        | error es2 => simp [FetchSeq, hpf, hrec] at h
        | ok pr =>
          obtain ⟨g2, es2⟩ := pr
          have hstep : FetchSeq true syncOk (p :: rest)
              = .ok (g2, Ev.netHalf p.name :: es2) := by
            simp [FetchSeq, hpf, hrec]
          rw [hstep] at h
          simp only [Except.ok.injEq, Prod.mk.injEq] at h
          rw [← h.2] at he
          rcases List.mem_cons.1 he with rfl | hm
          · exact ⟨p.name, rfl⟩
          · exact ih g2 es2 hrec e hm
      · have hff : force = false := by simpa using hf
        subst hff
        simp [FetchSeq, hpf] at h

theorem fetchConc_ok_netHalf (force : Bool) (syncOk : Project → Bool) :
    ∀ ps g es, FetchConc force syncOk ps = .ok (g, es) →
      ∀ e ∈ es, ∃ n, e = Ev.netHalf n := by
  intro ps
  induction ps with
  | nil =>
    intro g es h e he
    simp only [FetchConc, Except.ok.injEq, Prod.mk.injEq] at h
    rw [← h.2] at he
    simp at he
  | cons p rest ih =>
    intro g es h e he
    by_cases hp : syncOk p = true
    · cases hrec : FetchConc force syncOk rest with
      | error es2 => simp [FetchConc, FetchHelper, hp, hrec] at h
      | ok pr =>
        obtain ⟨g2, es2⟩ := pr
        have hstep : FetchConc force syncOk (p :: rest)
            = .ok (p.gitdir :: g2, Ev.netHalf p.name :: es2) := by
          simp [FetchConc, FetchHelper, hp, hrec]
        rw [hstep] at h
        simp only [Except.ok.injEq, Prod.mk.injEq] at h
        rw [← h.2] at he
        rcases List.mem_cons.1 he with rfl | hm
        · exact ⟨p.name, rfl⟩
        · exact ih g2 es2 hrec e hm
    · have hpf : syncOk p = false := by simpa using hp
      by_cases hf : force = true
      · subst hf
        cases hrec : FetchConc true syncOk rest with
        | error es2 => simp [FetchConc, FetchHelper, hpf, hrec] at h
        | ok pr =>
          obtain ⟨g2, es2⟩ := pr
          have hstep : FetchConc true syncOk (p :: rest)
              = .ok (p.gitdir :: g2, Ev.netHalf p.name :: es2) := by
            simp [FetchConc, FetchHelper, hpf, hrec]
          rw [hstep] at h
          simp only [Except.ok.injEq, Prod.mk.injEq] at h
          rw [← h.2] at he
          rcases List.mem_cons.1 he with rfl | hm
          · exact ⟨p.name, rfl⟩
          · exact ih g2 es2 hrec e hm
      · have hff : force = false := by simpa using hf
        subst hff
        simp [FetchConc, FetchHelper, hpf] at h

theorem fetchResult_ok_netHalf (opt : Opts) (env : Env) (g : List String) (es : List Ev)
    (h : fetchResult opt env = .ok (g, es)) : ∀ e ∈ es, ∃ n, e = Ev.netHalf n := by
  by_cases hj : (if opt.jobs ≠ 0 then opt.jobs else 1) = 1
  · rw [fetchResult, if_pos hj] at h
    exact fetchSeq_ok_netHalf _ _ _ g es h
  · rw [fetchResult, if_neg hj] at h
    exact fetchConc_ok_netHalf _ _ _ g es h

theorem postRepoFetch_proceed_events (rpName : String) (hc nv : Bool) (v : VerifyEnv)
    (lo : Bool) (h : (PostRepoFetch rpName hc nv v lo).1 = .proceed) :
    (PostRepoFetch rpName hc nv v lo).2 = [] ∨
    (PostRepoFetch rpName hc nv v lo).2 = [Ev.tagVerify] := by
  cases hc with
  | false => left; rfl
  | true =>
    cases nv with
    | true => cases lo <;> simp [PostRepoFetch] at h
    | false =>
      by_cases hacc : (VerifyTag v).accepted = true
      · cases lo <;> simp [PostRepoFetch, hacc] at h
      · have haccf : (VerifyTag v).accepted = false := by simpa using hacc
        by_cases hr : (VerifyTag v).ranTagVerify = true
        · right; simp [PostRepoFetch, haccf, hr]
        · have hrf : (VerifyTag v).ranTagVerify = false := by simpa using hr
          left; simp [PostRepoFetch, haccf, hrf]

theorem fetchStage_ok_events (opt : Opts) (env : Env) (es : List Ev)
    (h : fetchStage opt env = .ok es) :
    ∀ e ∈ es, (∃ n, e = Ev.netHalf n) ∨ e = Ev.tagVerify := by
  by_cases hl : opt.local_only = true
  · have hstep : fetchStage opt env = .ok ([] : List Ev) := by
      simp [fetchStage, hl]
    rw [hstep] at h
    have hes : ([] : List Ev) = es := Except.ok.inj h
    intro e he
    rw [← hes] at he
    simp at he
  · have hlf : opt.local_only = false := by simpa using hl
    cases hfr : fetchResult opt env with
    | error es2 =>
      have : fetchStage opt env = .error (.exited 1, es2) := by
        simp [fetchStage, hlf, hfr]
      rw [this] at h
      exact absurd h (by simp)
    | ok pr =>
      obtain ⟨g, esf⟩ := pr
      cases hpr : PostRepoFetch env.rp.name env.rpHasChanges opt.no_repo_verify
          env.verify env.rpLedgerOk with
      | mk po esp =>
        cases po with
        | proceed =>
          have hstep : fetchStage opt env = .ok (esf ++ esp) := by
            simp [fetchStage, hlf, hfr, hpr]
          rw [hstep] at h
          have hes : esf ++ esp = es := Except.ok.inj h
          intro e he
          rw [← hes] at he
          rcases List.mem_append.1 he with hin | hin
          · exact Or.inl (fetchResult_ok_netHalf opt env g esf hfr e hin)
          · have hp1 : (PostRepoFetch env.rp.name env.rpHasChanges opt.no_repo_verify
                env.verify env.rpLedgerOk).1 = .proceed := by rw [hpr]
            rcases postRepoFetch_proceed_events _ _ _ _ _ hp1 with hnil | htag
            · rw [hpr] at hnil
              simp only at hnil
              rw [hnil] at hin
              simp at hin
            · rw [hpr] at htag
              simp only at htag
              rw [htag] at hin
              simp at hin
              exact Or.inr hin
        | exitOne =>
          have hstep : fetchStage opt env = .error (.exited 1, esf ++ esp) := by
            simp [fetchStage, hlf, hfr, hpr]
          rw [hstep] at h
          exact absurd h (by simp)
        | restart extraArgs =>
          have hstep : fetchStage opt env = .error (.repoChanged extraArgs, esf ++ esp) := by
            simp [fetchStage, hlf, hfr, hpr]
          rw [hstep] at h
          exact absurd h (by simp)

/-- C7: with smart-sync requested, a missing manifest-server endpoint aborts
the run with exit 1 before any action at all (empty trace); and a connection
error or a `success = false` reply from `GetApprovedManifest` aborts with
exit 1 before any network fetch, local update, or reconciliation happened. -/
theorem smart_sync_failure_aborts_early (opt : Opts) (env : Env)
    (hss : opt.smart_sync = true) :
    (env.manifestServer = none → Execute opt env = (.exited 1, [])) ∧
    (∀ msg, (env.rpcResult = .error () ∨ env.rpcResult = .ok (false, msg)) →
      (Execute opt env).1 = .exited 1 ∧
      (∀ n, Ev.netHalf n ∉ (Execute opt env).2) ∧
      (∀ n, Ev.localHalf n ∉ (Execute opt env).2) ∧
      Ev.reconcile ∉ (Execute opt env).2) := by
  by_cases h1 : (opt.network_only && opt.detach_head) = true
  · have hE : Execute opt env = (.exited 1, []) := by
      simp [Execute, h1]
    refine ⟨fun _ => hE, fun msg _ => ?_⟩
    rw [hE]
    exact ⟨rfl, by simp, by simp, by simp⟩
  · by_cases h2 : (opt.network_only && opt.local_only) = true
    · have hE : Execute opt env = (.exited 1, []) := by
        simp [Execute, h1, h2]
      refine ⟨fun _ => hE, fun msg _ => ?_⟩
      rw [hE]
      exact ⟨rfl, by simp, by simp, by simp⟩
    · refine ⟨fun hserver => ?_, fun msg hrpc => ?_⟩
      · have hstage : smartSyncStage opt env = .error (.exited 1, []) := by
          simp [smartSyncStage, hss, hserver]
        simp [Execute, h1, h2, hstage]
      · cases hserver : env.manifestServer with
        | none =>
          have hstage : smartSyncStage opt env = .error (.exited 1, []) := by
            simp [smartSyncStage, hss, hserver]
          have hE : Execute opt env = (.exited 1, []) := by
            simp [Execute, h1, h2, hstage]
          rw [hE]
          exact ⟨rfl, by simp, by simp, by simp⟩
        | some srv =>
          have hstage : smartSyncStage opt env = .error (.exited 1, [Ev.rpcCall]) := by
            rcases hrpc with h | h <;> simp [smartSyncStage, hss, hserver, h]
          have hE : Execute opt env = (.exited 1, [Ev.rpcCall]) := by
            simp [Execute, h1, h2, hstage]
          rw [hE]
          exact ⟨rfl, by simp, by simp, by simp⟩

/-- Witness for C7: smart-sync flag set, no manifest server declared. -/
theorem smart_sync_failure_aborts_early_witness :
    Execute ⟨false, false, false, false, false, 1, true, false, false⟩ baseEnv
      = (.exited 1, []) :=
  (smart_sync_failure_aborts_early ⟨false, false, false, false, false, 1, true, false, false⟩
    baseEnv rfl).1 rfl

/-- C9 counterexample: a local-only run (`-l`) in which the manifest project
reports changes.  Its local-update pass (`mp.Sync_LocalHalf`) runs anyway,
because sync.py line 316 guards it only by `mp.HasChanges`, not by
`opt.local_only` — refuting the claim that it is performed only when
local-only is unset. -/
theorem local_only_manifest_update_cx :
    (⟨false, true, false, false, false, 1, false, false, false⟩ : Opts).local_only = true ∧
    Ev.localHalf "manifest" ∈
      (Execute ⟨false, true, false, false, false, 1, false, false, false⟩
        { baseEnv with mpHasChanges := true }).2 := by
  exact ⟨rfl, by decide⟩

/-- C9 (amended): in the manifest stage of `Execute`, the manifest network
fetch happens exactly when `--local-only` is unset, while the manifest
local-update pass happens exactly when the manifest project reports changes,
independently of `--local-only`. -/
theorem manifest_update_guards (opt : Opts) (env : Env) :
    (Ev.netHalf env.mp.name ∈ stageEvents (manifestStage opt env)
      ↔ opt.local_only = false) ∧
    (Ev.localHalf env.mp.name ∈ stageEvents (manifestStage opt env)
      ↔ env.mpHasChanges = true) := by
  cases h1 : opt.repo_upgraded <;> cases h2 : opt.local_only <;>
    cases h3 : env.mpHasChanges <;> cases h4 : env.mpLedgerOk <;>
      simp [manifestStage, stageEvents, h1, h2, h3, h4]

/-- C6 counterexample: a network-only (non-local-only) run in which the
manifest project reports changes.  The run returns success, but the manifest
project's local-update pass — a working-tree mutation — has occurred,
refuting the claim that no working-tree mutation occurs in such a run. -/
theorem network_only_manifest_mutation_cx :
    (⟨false, false, true, false, false, 1, false, false, false⟩ : Opts).network_only = true ∧
    (⟨false, false, true, false, false, 1, false, false, false⟩ : Opts).local_only = false ∧
    (Execute ⟨false, false, true, false, false, 1, false, false, false⟩
      { baseEnv with mpHasChanges := true }).1 = .done ∧
    Ev.localHalf "manifest" ∈
      (Execute ⟨false, false, true, false, false, 1, false, false, false⟩
        { baseEnv with mpHasChanges := true }).2 := by
  refine ⟨rfl, rfl, rfl, by decide⟩

/-- C6 (amended): a network-only, non-local-only run that terminates normally
(with success) has stopped at the early return after the fetch phase and the
self-upgrade check: its trace contains no reconciliation, no working-tree
deletion, no project-list write, no end-of-sync notice, and the only
local-update event possible is the manifest project's, which precedes the
fetch phase. -/
theorem network_only_stops_after_fetch (opt : Opts) (env : Env)
    (hn : opt.network_only = true) (hl : opt.local_only = false)
    (hdone : (Execute opt env).1 = .done) :
    Ev.reconcile ∉ (Execute opt env).2 ∧
    (∀ pth, Ev.rmtree pth ∉ (Execute opt env).2) ∧
    Ev.writeProjectList ∉ (Execute opt env).2 ∧
    (∀ s, Ev.notice s ∉ (Execute opt env).2) ∧
    (∀ n, Ev.localHalf n ∈ (Execute opt env).2 → n = env.mp.name) := by
  by_cases hd : opt.detach_head = true
  · exfalso
    have hE : Execute opt env = (.exited 1, []) := by
      simp [Execute, hn, hd]
    rw [hE] at hdone
    simp at hdone
  · have hdf : opt.detach_head = false := by simpa using hd
    cases hss : smartSyncStage opt env with
    | error r =>
      obtain ⟨o, es⟩ := r
      have ho := smartSyncStage_error_outcome opt env o es hss
      exfalso
      have hE : Execute opt env = (o, es) := by
        simp [Execute, hn, hl, hdf, hss]
      subst ho
      rw [hE] at hdone
      simp at hdone
    | ok es1 =>
      cases hms : manifestStage opt env with
      | error r =>
        obtain ⟨o, es⟩ := r
        have ho := manifestStage_error_outcome opt env o es hms
        exfalso
        have hE : Execute opt env = (o, es1 ++ es) := by
          simp [Execute, hn, hl, hdf, hss, hms]
        subst ho
        rw [hE] at hdone
        simp at hdone
      | ok es2 =>
        cases hfs : fetchStage opt env with
        | error r =>
          obtain ⟨o, es⟩ := r
          have ho := fetchStage_error_outcome opt env o es hfs
          exfalso
          have hE : Execute opt env = (o, es1 ++ es2 ++ es) := by
            simp [Execute, hn, hl, hdf, hss, hms, hfs]
          rcases ho with ho | ⟨extraArgs, ho⟩ <;>
            (subst ho; rw [hE] at hdone; simp at hdone)
        | ok es3 =>
          have hE : Execute opt env = (.done, es1 ++ es2 ++ es3) := by
            simp [Execute, hn, hl, hdf, hss, hms, hfs]
          have hE2 : (Execute opt env).2 = es1 ++ es2 ++ es3 := by rw [hE]
          have h1 := smartSyncStage_ok_events opt env es1 hss
          have h3 := fetchStage_ok_events opt env es3 hfs
          have hall : ∀ e ∈ es1 ++ es2 ++ es3,
              e = Ev.rpcCall ∨ e = Ev.manifestOverride "smart_sync_override.xml" ∨
              e = Ev.preSyncRepo ∨ e = Ev.preSyncManifest ∨ e = Ev.postRepoUpgrade ∨
              e = Ev.netHalf env.mp.name ∨ e = Ev.localHalf env.mp.name ∨ e = Ev.unload ∨
              (∃ n, e = Ev.netHalf n) ∨ e = Ev.tagVerify := by
            intro e he
            simp only [List.mem_append] at he
            rcases he with (hin1 | hin2) | hin3
            · rcases h1 with rfl | rfl
              · simp at hin1
              · have : e = Ev.rpcCall ∨ e = Ev.manifestOverride "smart_sync_override.xml" := by
                  simpa using hin1
                tauto
            · have hin2s : e ∈ stageEvents (manifestStage opt env) := by
                rw [hms]
                exact hin2
              have := manifestStage_events opt env e hin2s
              tauto
            · have := h3 e hin3
              tauto
          rw [hE2]
          refine ⟨?_, ?_, ?_, ?_, ?_⟩
          · intro hmem
            rcases hall _ hmem with h|h|h|h|h|h|h|h|⟨n2,h⟩|h <;> simp_all
          · intro pth hmem
            rcases hall _ hmem with h|h|h|h|h|h|h|h|⟨n2,h⟩|h <;> simp_all
          · intro hmem
            rcases hall _ hmem with h|h|h|h|h|h|h|h|⟨n2,h⟩|h <;> simp_all
          · intro s hmem
            rcases hall _ hmem with h|h|h|h|h|h|h|h|⟨n2,h⟩|h <;> simp_all
          · intro n hmem
            rcases hall _ hmem with h|h|h|h|h|h|h|h|⟨n2,h⟩|h <;> simp_all

/-- Witness for C6 (amended): a concrete network-only run that succeeds. -/
theorem network_only_stops_after_fetch_witness :
    Ev.reconcile ∉
      (Execute ⟨false, false, true, false, false, 1, false, false, false⟩ baseEnv).2 :=
  (network_only_stops_after_fetch ⟨false, false, true, false, false, 1, false, false, false⟩
    baseEnv rfl rfl (by decide)).1

end RepoSync
